import Mathlib

/-!
Verification of the tfkaldi batch dispenser and attend-and-spell cell.

The definitions below are a shallow embedding of `prepare/batch_dispenser.py`
and `neuralnetworks/las_elements.py`.  Feature values are modelled as
rationals, label codes as naturals, numpy arrays as (nested) lists, and
fallible operations (numpy exceptions, Python assertions and key errors)
return `Option`/`Except`.
-/

namespace TfKaldi

/-! ## `UttTextDispenser` (`batch_dispenser.py`, lines 295-372) -/

/-- The allowed-character list built in `UttTextDispenser.__init__`:
seven punctuation/marker characters followed by
`[chr(c) for c in range(ord("a"), ord("z"))]` — the Python `range` upper
bound is exclusive, so the letters run from `'a'` to `'y'`. -/
def allowed_chrs : List Char :=
  ['>', '<', ' ', ',', '.', '\'', '?'] ++
    (List.range ('z'.toNat - 'a'.toNat)).map (fun i => Char.ofNat ('a'.toNat + i))

/-- Model of `self.code_dict`: each allowed character maps to its position in
`allowed_chrs` (built by `enumerate(allowed_chrs)`); a lookup of a character
outside the list is a Python `KeyError`, modelled by `none`. -/
def code_dict (c : Char) : Option Nat :=
  if c ∈ allowed_chrs then some (allowed_chrs.indexOf c) else none

/-- Model of `reverse_dict` in `UttTextDispenser.decode`: code back to character.
Since `code_dict` assigns positions in `allowed_chrs`, the reverse lookup of
code `k` returns the `k`-th allowed character (`none` models `KeyError`). -/
def reverse_dict (k : Nat) : Option Char := allowed_chrs.get? k

/-- Semantics of `np.array(lst, dtype=np.uint8)` on one element: values are
reduced modulo 2^8. -/
def np_uint8 (n : Nat) : Nat := n % 256

/-- Model of `UttTextDispenser.encode`: look every character up in `code_dict`
(KeyError on an unknown character) and store the result as a `uint8` array. -/
def UttText_encode (char_lst : List Char) : Option (List Nat) :=
  (char_lst.mapM code_dict).map (List.map np_uint8)

/-- Model of `UttTextDispenser.decode`: look every code up in `reverse_dict`. -/
def UttText_decode (codes : List Nat) : Option (List Char) :=
  codes.mapM reverse_dict

/-- The word-to-token step of the first loop of
`UttTextDispenser.normalize_targets`: `",COMMA"` becomes a comma token,
`".PERIOD"` a period token, any other word is followed by a space token. -/
def word_tokens (word : String) : List String :=
  if word = ",COMMA" then [","]
  else if word = ".PERIOD" then ["."]
  else [word, " "]

/-- Model of `tmp_lst[-1] = ">"`: overwrite the last element (the list is never empty
here because it starts with the `"<"` marker). -/
def set_last_gt (l : List String) : List String := l.dropLast ++ [">"]

/-- One character of the second loop of `normalize_targets`: lower-case, then
keep the character if it is allowed and replace it by `'?'` otherwise. -/
def norm_char (c : Char) : Char :=
  let lower_c := c.toLower
  if lower_c ∈ allowed_chrs then lower_c else '?'

/-- Model of `UttTextDispenser.normalize_targets`: build
`tmp_lst = ["<"] ++ tokens`, overwrite its last element with `">"`, then
flatten it character-wise through `norm_char`. -/
def normalize_targets (target_list : List String) : List Char :=
  let tmp_lst := set_last_gt ("<" :: target_list.flatMap word_tokens)
  tmp_lst.flatMap (fun word => word.toList.map norm_char)

example : normalize_targets ["THE", ",COMMA", "CAT"] =
    ['<', 't', 'h', 'e', ' ', ',', 'c', 'a', 't', '>'] := by decide

example : allowed_chrs.length = 32 := by decide

/-! ## `PhonemeTextDispenser.encode` (`batch_dispenser.py`, lines 412-419) -/

/-- Model of `PhonemeTextDispenser.encode`: look every phoneme up in `self.phone_map`
(a `KeyError`, i.e. `none`, on an unknown phoneme) and store the result as a
`uint8` array.  The phoneme map itself is corpus-dependent, so it is a
parameter. -/
def Phoneme_encode (phone_map : String → Option Nat) (phone_lst : List String) :
    Option (List Nat) :=
  (phone_lst.mapM phone_map).map (List.map np_uint8)

/-! ## `BatchDispenser.target_list_to_sparse_tensor`
(`batch_dispenser.py`, lines 236-253) -/

/-- Inner loop of `target_list_to_sparse_tensor` over
`enumerate(target)`: for each position append `len(target)` to `lengths`;
when the value is nonzero additionally append `[t_i, seq_i]` to `indices`
and the value to `vals`.  Returns `(indices, vals, lengths)` in loop order. -/
def sparse_inner (t_i len : Nat) : Nat → List Nat →
    List (Nat × Nat) × List Nat × List Nat
  | _, [] => ([], [], [])
  | seq_i, val :: rest =>
    let (is, vs, ls) := sparse_inner t_i len (seq_i + 1) rest
    if val ≠ 0 then ((t_i, seq_i) :: is, val :: vs, len :: ls)
    else (is, vs, len :: ls)

/-- Outer loop of `target_list_to_sparse_tensor` over
`enumerate(target_list)`. -/
def sparse_outer : Nat → List (List Nat) →
    List (Nat × Nat) × List Nat × List Nat
  | _, [] => ([], [], [])
  | t_i, target :: rest =>
    let (is₁, vs₁, ls₁) := sparse_inner t_i target.length 0 target
    let (is₂, vs₂, ls₂) := sparse_outer (t_i + 1) rest
    (is₁ ++ is₂, vs₁ ++ vs₂, ls₁ ++ ls₂)

/-- Model of `BatchDispenser.target_list_to_sparse_tensor`: run the two loops and
return `(indices, vals, [len(target_list), np.max(lengths)])`.
`np.max` of an empty list raises `ValueError`, modelled by `none`
(`List.maximum` is `none` exactly on the empty list). -/
def target_list_to_sparse_tensor (target_list : List (List Nat)) :
    Option (List (Nat × Nat) × List Nat × (Nat × Nat)) :=
  let (indices, vals, lengths) := sparse_outer 0 target_list
  match lengths.maximum with
  | none => none
  | some m => some (indices, vals, (target_list.length, m))

example : target_list_to_sparse_tensor [[0, 3, 0, 5]] =
    some ([(0, 1), (0, 3)], [3, 5], (1, 4)) := by decide

example : target_list_to_sparse_tensor [[], []] = none := by decide

/-! ## `BatchDispenser.data_lists_to_batch` (`batch_dispenser.py`, lines 158-214)

Input matrices are `n_features x time` numpy arrays, modelled as lists of
`n_features` rows of length `time` (`shape[0] = m.length`,
`shape[1] = cols m` for rectangular `m`).  Only the input-tensor and
sequence-length part of the method is modelled; the target branch is
`target_list_to_one_hot`/`target_list_to_sparse_tensor`. -/

/-- Value of `m.shape[1]` of a (rectangular) matrix given as a list of rows. -/
def cols (m : List (List ℚ)) : Nat := (m.headD []).length

/-- Column `t` of an `n_features x time` matrix, i.e. row `t` of its
transpose: one entry per feature row. -/
def matrix_col (m : List (List ℚ)) (t : Nat) : List ℚ :=
  m.map (fun row => row.getD t 0)

/-- Computation of `max_steps` of `data_lists_to_batch`: `self.max_time` when set, the
maximum of `inp.shape[1]` over the input list otherwise (starting from 0). -/
def batch_max_steps (max_time : Option Nat) (input_list : List (List (List ℚ))) :
    Nat :=
  match max_time with
  | none => input_list.foldl (fun acc inp => max acc (cols inp)) 0
  | some m => m

/-- Model of `BatchDispenser.data_lists_to_batch`, input part.  Returns
`(batch_inputs, batch_seq_lengths)` where `batch_inputs` is time-major
`[max_steps][size][n_features]`, or `none` where the Python code raises:
the `assert len(input_list) == len(target_list)`, the `input_list[0]`
access on an empty list, a negative `pad_secs` (a `ValueError` in `np.pad`),
and a feature-dimension mismatch (a broadcast error in the slice
assignment).  `batch_ixs[start:end]` keeps only the first `size` inputs, and
batch slots beyond `len(input_list)` keep their `np.zeros` fill. -/
def data_lists_to_batch (max_time : Option Nat) (size : Nat)
    (input_list : List (List (List ℚ))) (target_list : List (List Nat)) :
    Option (List (List (List ℚ)) × List Nat) :=
  if input_list.length ≠ target_list.length then none
  else
    match input_list with
    | [] => none
    | m₀ :: _ =>
      let n_features := m₀.length
      let max_steps := batch_max_steps max_time input_list
      if (input_list.take size).any (fun m => max_steps < cols m) then none
      else if (input_list.take size).any (fun m => m.length ≠ n_features) then
        none
      else
        let batch_seq_lengths :=
          (List.range size).map (fun b => cols ((input_list.take size).getD b []))
        let batch_inputs :=
          (List.range max_steps).map (fun t =>
            (List.range size).map (fun b =>
              match (input_list.take size).get? b with
              | some m =>
                if t < cols m then matrix_col m t
                else List.replicate n_features 0
              | none => List.replicate n_features 0))
        some (batch_inputs, batch_seq_lengths)

example : data_lists_to_batch none 2
    [[[1, 2, 3], [4, 5, 6]], [[7], [8]]] [[1], [2]] =
    some ([[[1, 4], [7, 8]], [[2, 5], [0, 0]], [[3, 6], [0, 0]]], [3, 1]) := by
  decide

/-! ## `AttendAndSpellCell` (`las_elements.py`, lines 88-418)

Vectors are `List ℚ`, per-batch-element.  The learned sub-networks
(`featr_net`, `state_net`, `char_net`, the two `RNN`s) and the external
TensorFlow `softmax` op are collaborators: they are carried as function
fields of the cell.  The recurrent state type is a parameter `σ`.
The uniform draw of `tf.random_uniform` is passed in explicitly. -/

/-- Model of `StateTouple` (`las_elements.py`, lines 88-124): the four-field
attend-and-spell cell state. -/
structure StateTouple (σ : Type) where
  pre_context_states : σ
  post_context_states : σ
  one_hot_char : List ℚ
  context_vector : List ℚ
deriving Repr, DecidableEq

/-- The attend-and-spell cell: collaborator networks plus the mutable
feature registers `high_lvl_features` and `psi`, both `None` until
`set_features` has run. -/
structure AttendAndSpellCell (σ : Type) where
  featr_net : List (List ℚ) → List (List ℚ)
  state_net : List ℚ → List ℚ
  char_net : List ℚ → List ℚ
  softmax : List ℚ → List ℚ
  pre_context_rnn : List ℚ → σ → List ℚ × σ
  post_context_rnn : List ℚ → σ → List ℚ × σ
  type_two : Bool
  target_label_no : Nat
  high_lvl_features : Option (List (List ℚ))
  psi : Option (List (List ℚ))

/-- Value `net_out_prob` hardcoded in `select_out_or_target` (line 281). -/
def net_out_prob : ℚ := 2 / 10

/-- Model of `AttendAndSpellCell.select_out_or_target` (lines 265-291):
`tf.cond(rand_val > net_out_prob, pick_ground_truth, pick_last_output)`
for a uniform draw `rand_val` from `[0, 1)`. -/
def select_out_or_target (rand_val : ℚ)
    (groundtruth_char one_hot_char : List ℚ) : List ℚ :=
  if net_out_prob < rand_val then groundtruth_char else one_hot_char

/-- Lines 376-380 of `AttendAndSpellCell.__call__`: when a ground-truth
label is supplied, run `select_out_or_target`; otherwise keep the state's
previous `one_hot_char`. -/
def fed_back_label (cell_input : Option (List ℚ)) (one_hot_char : List ℚ)
    (rand_val : ℚ) : List ℚ :=
  match cell_input with
  | some groundtruth_char =>
      select_out_or_target rand_val groundtruth_char one_hot_char
  | none => one_hot_char

/-- Inner product of two equal-length vectors (`tf.batch_matmul` slice). -/
def dot (a b : List ℚ) : ℚ := (List.zipWith (· * ·) a b).sum

/-- Element-wise vector sum onto an accumulator. -/
def vec_add (a b : List ℚ) : List ℚ := List.zipWith (· + ·) a b

/-- Model of `AttendAndSpellCell.attention_context` (lines 310-344): project the
pre-context output through `state_net`, take inner products with the rows of
`psi`, softmax over time, and form the alpha-weighted sum of the raw
high-level features. -/
def attention_context (cell : AttendAndSpellCell σ)
    (pre_context_out : List ℚ) : List ℚ :=
  let phi := cell.state_net pre_context_out
  let psi := cell.psi.getD []
  let features := cell.high_lvl_features.getD []
  let scalar_energy := psi.map (fun psi_u => dot psi_u phi)
  let alpha := cell.softmax scalar_energy
  (List.zipWith (fun a h => h.map (fun x => a * x)) alpha features).foldl
    vec_add (List.replicate (features.headD []).length 0)

/-- Index of the first maximal entry of a logit vector (`tf.argmax`). -/
def argmax_from (i best : Nat) (best_val : ℚ) : List ℚ → Nat
  | [] => best
  | x :: xs =>
    if best_val < x then argmax_from (i + 1) i x xs
    else argmax_from (i + 1) best best_val xs

/-- Model of `tf.argmax(logits, 1)` for one batch element. -/
def argmax : List ℚ → Nat
  | [] => 0
  | x :: xs => argmax_from 1 0 x xs

/-- Model of `tf.one_hot(i, n)` for one batch element. -/
def one_hot (i n : Nat) : List ℚ :=
  (List.range n).map (fun j => if j = i then 1 else 0)

/-- Model of `AttendAndSpellCell.greedy_decoding` (lines 293-307). -/
def greedy_decoding (cell : AttendAndSpellCell σ) (logits : List ℚ) :
    List ℚ :=
  one_hot (argmax logits) cell.target_label_no

/-- Model of `AttendAndSpellCell.set_features` (lines 186-201): store the features
and precompute `psi` by running `featr_net` over them. -/
def set_features (cell : AttendAndSpellCell σ)
    (high_lvl_features : List (List ℚ)) : AttendAndSpellCell σ :=
  { cell with
    high_lvl_features := some high_lvl_features
    psi := some (cell.featr_net high_lvl_features) }

/-- Model of `AttendAndSpellCell.__call__` (lines 347-418): raise
`AttributeError("Features must be set.")` when `psi` is unset, otherwise
select the fed-back label, run the pre-context RNN on
`[one_hot_char, context_vector]`, attend, score through `char_net`
(via the post-context RNN in the `type_two` variant), and greedily decode
the next `one_hot_char`. -/
def cell_call (cell : AttendAndSpellCell σ) (cell_input : Option (List ℚ))
    (state : StateTouple σ) (rand_val : ℚ) :
    Except String (List ℚ × StateTouple σ) :=
  match cell.psi with
  | none => .error "Features must be set."
  | some _ =>
    let one_hot_char := fed_back_label cell_input state.one_hot_char rand_val
    let rnn_input := one_hot_char ++ state.context_vector
    let pre := cell.pre_context_rnn rnn_input state.pre_context_states
    let pre_context_out := pre.1
    let pre_context_states := pre.2
    let context_vector := attention_context cell pre_context_out
    let char_and_post :=
      if cell.type_two then
        let post := cell.post_context_rnn context_vector
          state.post_context_states
        (pre_context_out ++ post.1, post.2)
      else
        (pre_context_out ++ context_vector, state.post_context_states)
    let logits := cell.char_net char_and_post.1
    let new_one_hot := greedy_decoding cell logits
    .ok (logits,
      ⟨pre_context_states, char_and_post.2, new_one_hot, context_vector⟩)

/-! ## Helper lemmas -/

lemma norm_char_mem_allowed (c : Char) : norm_char c ∈ allowed_chrs := by
  by_cases h : c.toLower ∈ allowed_chrs
  · simp [norm_char, h]
  · simpa [norm_char, h] using (by decide : '?' ∈ allowed_chrs)

lemma mem_normalize_targets_allowed {c : Char} {ws : List String}
    (h : c ∈ normalize_targets ws) : c ∈ allowed_chrs := by
  unfold normalize_targets at h
  simp only [List.mem_flatMap, List.mem_map] at h
  obtain ⟨w, -, c', -, rfl⟩ := h
  exact norm_char_mem_allowed c'

lemma normalize_targets_eq_concat (ws : List String) :
    normalize_targets ws =
      (("<" :: ws.flatMap word_tokens).dropLast.flatMap
        (fun w => w.toList.map norm_char)) ++ ['>'] := by
  simp [normalize_targets, set_last_gt, (by decide : norm_char '>' = '>')]

/-! ## Claim theorems -/

/-- Claim C1, counterexample: normalizing `["THE", ",COMMA", "CAT"]` does
not produce the claimed sequence `['<','t','h','e',',',' ','c','a','t','>']`
(the space token that follows `"THE"` comes before the comma token). -/
theorem c1_counterexample :
    normalize_targets ["THE", ",COMMA", "CAT"] ≠
      ['<', 't', 'h', 'e', ',', ' ', 'c', 'a', 't', '>'] := by decide

/-- Claim C1, amended: normalizing `["THE", ",COMMA", "CAT"]` yields exactly
`['<','t','h','e',' ',',','c','a','t','>']`: each ordinary word is followed
by a space token, so the space emitted after `"the"` precedes the comma. -/
theorem c1_amended :
    normalize_targets ["THE", ",COMMA", "CAT"] =
      ['<', 't', 'h', 'e', ' ', ',', 'c', 'a', 't', '>'] := by decide

/-- Claim C2, counterexample: `'z'` is not in the allowed-character list
(the Python `range(ord("a"), ord("z"))` excludes its upper bound), and
normalizing a word containing `'z'` replaces it with `'?'` instead of
keeping it. -/
theorem c2_counterexample :
    'z' ∉ allowed_chrs ∧
      normalize_targets ["ZOO"] ≠ ['<', 'z', 'o', 'o', '>'] ∧
      normalize_targets ["ZOO"] = ['<', '?', 'o', 'o', '>'] := by decide

/-- Claim C2, amended: the allowed-character set is exactly
`{'>', '<', ' ', ',', '.', '\'', '?'}` together with the lowercase letters
`'a'` through `'y'` inclusive (`'z'` is excluded); every character of a
normalized word list lies in this set, any character whose lower-case form
is outside the set is mapped to `'?'`, and in particular `'z'` becomes
`'?'`. -/
theorem c2_amended :
    allowed_chrs =
      ['>', '<', ' ', ',', '.', '\'', '?', 'a', 'b', 'c', 'd', 'e', 'f',
        'g', 'h', 'i', 'j', 'k', 'l', 'm', 'n', 'o', 'p', 'q', 'r', 's',
        't', 'u', 'v', 'w', 'x', 'y'] ∧
      (∀ (ws : List String) (c : Char),
        c ∈ normalize_targets ws → c ∈ allowed_chrs) ∧
      (∀ c : Char, c.toLower ∉ allowed_chrs → norm_char c = '?') ∧
      normalize_targets ["ZOO"] = ['<', '?', 'o', 'o', '>'] := by
  refine ⟨by decide, ?_, ?_, by decide⟩
  · exact fun ws c h => mem_normalize_targets_allowed h
  · intro c h
    simp [norm_char, h]

/-- Claim C2, witness for the amended theorem's hypotheses: `'z'.toLower`
is outside the allowed set and is therefore normalized to `'?'`, while the
character `'e'` of a normalized word list is allowed. -/
theorem c2_witness : norm_char 'z' = '?' ∧ 'e' ∈ allowed_chrs :=
  ⟨c2_amended.2.2.1 'z' (by decide),
    c2_amended.2.1 ["HE"] 'e' (by decide)⟩

/-- Claim C3: with every target sequence empty the `lengths` list stays
empty, and `np.max` of an empty list raises `ValueError` — the sparse
encoding crashes (`none`) instead of being guarded. -/
theorem c3_crash_on_all_empty :
    target_list_to_sparse_tensor [[]] = none ∧
      target_list_to_sparse_tensor [[], []] = none := by decide

/-- Claim C9: the `tmp_lst[-1] = ">"` assignment unconditionally overwrites
the final token: the empty word list normalizes to `['>']` without a start
marker, a trailing `",COMMA"` loses its comma to the end marker, and every
normalized sequence ends in `'>'`. -/
theorem c9_last_token_overwritten :
    normalize_targets [] = ['>'] ∧
      normalize_targets ["THE", ",COMMA"] = ['<', 't', 'h', 'e', ' ', '>'] ∧
      ∀ ws : List String, (normalize_targets ws).getLast? = some '>' := by
  refine ⟨by decide, by decide, fun ws => ?_⟩
  rw [normalize_targets_eq_concat, List.getLast?_concat]

lemma allowed_chrs_length : allowed_chrs.length = 32 := by decide

lemma indexOf_allowed_lt {c : Char} (h : c ∈ allowed_chrs) :
    allowed_chrs.indexOf c < 32 := by
  have h2 : allowed_chrs.indexOf c < allowed_chrs.length :=
    List.indexOf_lt_length.mpr h
  rw [allowed_chrs_length] at h2
  exact h2

lemma code_dict_mapM (l : List Char) (h : ∀ c ∈ l, c ∈ allowed_chrs) :
    l.mapM code_dict = some (l.map (fun c => allowed_chrs.indexOf c)) := by
  induction l with
  | nil => rfl
  | cons c cs ih =>
    have hc : c ∈ allowed_chrs := h c (List.mem_cons_self _ _)
    have ihc := ih (fun x hx => h x (List.mem_cons_of_mem _ hx))
    rw [List.mapM_cons, ihc]
    simp [code_dict, hc]

lemma reverse_dict_indexOf {c : Char} (h : c ∈ allowed_chrs) :
    reverse_dict (allowed_chrs.indexOf c) = some c := by
  have hlt : allowed_chrs.indexOf c < allowed_chrs.length :=
    List.indexOf_lt_length.mpr h
  unfold reverse_dict
  rw [List.get?_eq_getElem?, List.getElem?_eq_getElem hlt,
    List.getElem_indexOf hlt]

lemma reverse_dict_mapM (l : List Char) (h : ∀ c ∈ l, c ∈ allowed_chrs) :
    (l.map (fun c => allowed_chrs.indexOf c)).mapM reverse_dict = some l := by
  induction l with
  | nil => rfl
  | cons c cs ih =>
    have hc : c ∈ allowed_chrs := h c (List.mem_cons_self _ _)
    have ihc := ih (fun x hx => h x (List.mem_cons_of_mem _ hx))
    rw [List.map_cons, List.mapM_cons, ihc, reverse_dict_indexOf hc]
    rfl

/-- Claim C8: the character encoder's encode and decode are inverse over
normalized output: for every word list, decoding the `uint8` encoding of
the normalized token sequence returns that token sequence (in particular
for every string composed only of allowed characters). -/
theorem c8_encode_decode_round_trip (ws : List String) :
    (UttText_encode (normalize_targets ws)).bind UttText_decode =
      some (normalize_targets ws) := by
  have hall : ∀ c ∈ normalize_targets ws, c ∈ allowed_chrs :=
    fun c hc => mem_normalize_targets_allowed hc
  have henc : UttText_encode (normalize_targets ws) =
      some ((normalize_targets ws).map (fun c => allowed_chrs.indexOf c)) := by
    unfold UttText_encode
    rw [code_dict_mapM _ hall, Option.map_some', List.map_map]
    congr 1
    refine List.map_congr_left ?_
    intro c hc
    simp only [Function.comp_apply]
    exact Nat.mod_eq_of_lt (lt_trans (indexOf_allowed_lt (hall c hc))
      (by norm_num))
  rw [henc]
  exact reverse_dict_mapM _ hall

/-- Claim C10: both encoders convert their lookup results with
`dtype=np.uint8`, so every emitted code is the vocabulary code reduced
modulo 256; a phoneme map assigning code 300 silently yields 44 instead of
being rejected. -/
theorem c10_uint8_wrapping :
    (∀ (phone_map : String → Option Nat) (phones : List String)
        (raw : List Nat), phones.mapM phone_map = some raw →
        Phoneme_encode phone_map phones = some (raw.map (fun n => n % 256))) ∧
      (∀ (char_lst : List Char) (raw : List Nat),
        char_lst.mapM code_dict = some raw →
        UttText_encode char_lst = some (raw.map (fun n => n % 256))) ∧
      Phoneme_encode (fun p => if p = "zh" then some 300 else none) ["zh"] =
        some [44] := by
  refine ⟨?_, ?_, by decide⟩
  · intro phone_map phones raw h
    unfold Phoneme_encode
    rw [h]
    rfl
  · intro char_lst raw h
    unfold UttText_encode
    rw [h]
    rfl

/-- Claim C10, witness: a phoneme map assigning `"zh"` the code 300 encodes
`["zh"]` to `[300 % 256] = [44]`. -/
theorem c10_witness :
    Phoneme_encode (fun p => if p = "zh" then some 300 else none) ["zh"] =
      some ([300].map (fun n => n % 256)) :=
  c10_uint8_wrapping.1 (fun p => if p = "zh" then some 300 else none)
    ["zh"] [300] rfl

lemma sparse_inner_eq (t_i len k : Nat) (target : List Nat) :
    sparse_inner t_i len k target =
      ((target.enumFrom k).filterMap
          (fun p => if p.2 ≠ 0 then some (t_i, p.1) else none),
        target.filter (fun v => v ≠ 0),
        List.replicate target.length len) := by
  induction target generalizing k with
  | nil => rfl
  | cons v rest ih =>
    rw [sparse_inner, ih (k + 1)]
    by_cases hv : v = 0 <;>
      simp [hv, List.enumFrom, List.filterMap_cons, List.filter_cons,
        List.replicate_succ]

lemma sparse_outer_eq (t0 : Nat) (tl : List (List Nat)) :
    sparse_outer t0 tl =
      ((tl.enumFrom t0).flatMap (fun te =>
          te.2.enum.filterMap
            (fun p => if p.2 ≠ 0 then some (te.1, p.1) else none)),
        tl.flatMap (fun t => t.filter (fun v => v ≠ 0)),
        tl.flatMap (fun t => List.replicate t.length t.length)) := by
  induction tl generalizing t0 with
  | nil => rfl
  | cons target rest ih =>
    rw [sparse_outer, sparse_inner_eq, ih (t0 + 1)]
    simp [List.enumFrom, List.enum]

/-- Claim C4: the sparse target encoding emits an `(index, value)` pair
exactly at the nonzero positions, in order; every position contributes its
sequence's length to the `lengths` list, so the reported shape is
`(len(target_list), max sequence length)`; concretely,
`target_list_to_sparse_tensor [[0,3,0,5]]` yields indices
`[(0,1),(0,3)]`, values `[3,5]` and shape `(1,4)`. -/
theorem c4_sparse_tensor :
    target_list_to_sparse_tensor [[0, 3, 0, 5]] =
        some ([(0, 1), (0, 3)], [3, 5], (1, 4)) ∧
      ∀ (tl : List (List Nat)) (indices : List (Nat × Nat))
        (vals : List Nat) (shape : Nat × Nat),
        target_list_to_sparse_tensor tl = some (indices, vals, shape) →
        indices = tl.enum.flatMap (fun te =>
            te.2.enum.filterMap
              (fun p => if p.2 ≠ 0 then some (te.1, p.1) else none)) ∧
          vals = tl.flatMap (fun t => t.filter (fun v => v ≠ 0)) ∧
          shape.1 = tl.length ∧
          shape.2 ∈ tl.map List.length ∧
          ∀ t ∈ tl, t.length ≤ shape.2 := by
  refine ⟨by decide, ?_⟩
  intro tl indices vals shape h
  unfold target_list_to_sparse_tensor at h
  rw [sparse_outer_eq] at h
  dsimp only at h
  set lengths := tl.flatMap (fun t => List.replicate t.length t.length)
    with hlengths
  rcases hmax : lengths.maximum with - | m
  · rw [hmax] at h
    exact absurd h (by simp)
  · rw [hmax] at h
    simp only [Option.some.injEq, Prod.mk.injEq] at h
    obtain ⟨hi, hv, hs⟩ := h
    have henum : tl.enumFrom 0 = tl.enum := rfl
    refine ⟨by rw [← hi, henum], by rw [← hv], ?_, ?_, ?_⟩
    · rw [← hs]
    · have hm : m ∈ lengths := List.maximum_mem hmax
      rw [hlengths] at hm
      simp only [List.mem_flatMap] at hm
      obtain ⟨t, ht, hmem⟩ := hm
      have : m = t.length := List.eq_of_mem_replicate hmem
      rw [← hs]
      exact List.mem_map.mpr ⟨t, ht, this.symm⟩
    · intro t ht
      rw [← hs]
      rcases Nat.eq_zero_or_pos t.length with h0 | hpos
      · simp [h0]
      · have hmem : t.length ∈ lengths := by
          rw [hlengths]
          refine List.mem_flatMap.mpr ⟨t, ht, ?_⟩
          exact List.mem_replicate.mpr ⟨Nat.pos_iff_ne_zero.mp hpos, rfl⟩
        exact List.le_maximum_of_mem hmem hmax

/-- Claim C4, witness: instantiating the general characterization at
`[[0, 3, 0, 5]]`. -/
theorem c4_witness :
    [(0, 1), (0, 3)] = ([[0, 3, 0, 5]] : List (List Nat)).enum.flatMap
        (fun te => te.2.enum.filterMap
          (fun p => if p.2 ≠ 0 then some (te.1, p.1) else none)) ∧
      [3, 5] = ([[0, 3, 0, 5]] : List (List Nat)).flatMap
        (fun t => t.filter (fun v => v ≠ 0)) ∧
      (1, 4).1 = ([[0, 3, 0, 5]] : List (List Nat)).length ∧
      (1, 4).2 ∈ ([[0, 3, 0, 5]] : List (List Nat)).map List.length ∧
      ∀ t ∈ ([[0, 3, 0, 5]] : List (List Nat)), t.length ≤ (1, 4).2 :=
  c4_sparse_tensor.2 [[0, 3, 0, 5]] [(0, 1), (0, 3)] [3, 5] (1, 4) (by decide)

lemma foldl_max_eq (l : List Nat) (a : Nat) :
    l.foldl max a = max a (l.foldr max 0) := by
  induction l generalizing a with
  | nil => simp
  | cons x xs ih => simp [List.foldl_cons, List.foldr_cons, ih, Nat.max_assoc]

lemma batch_max_steps_none (il : List (List (List ℚ))) :
    batch_max_steps none il = (il.map cols).foldr max 0 := by
  unfold batch_max_steps
  have h1 : il.foldl (fun acc inp => max acc (cols inp)) 0 =
      (il.map cols).foldl max 0 := (List.foldl_map _ _ _ _).symm
  rw [h1, foldl_max_eq]
  exact Nat.zero_max _

/-- Claim C5: a successfully assembled batch from exactly `size` matrices of
`nf` feature rows has a time-major inputs tensor of shape
`(max_steps, size, nf)`, where `max_steps` is the caller-supplied cap when
configured and the maximum observed utterance length otherwise; the
sequence-length vector records each matrix's length and all feature vectors
at time positions at or beyond `sequence_lengths[b]` are zero. -/
theorem c5_batch_shape_and_padding :
    ∀ (max_time : Option Nat) (size nf : Nat) (il : List (List (List ℚ)))
      (tl : List (List Nat)) (bi : List (List (List ℚ))) (sl : List Nat),
      il.length = size →
      (∀ m ∈ il, m.length = nf) →
      data_lists_to_batch max_time size il tl = some (bi, sl) →
      bi.length = batch_max_steps max_time il ∧
        (max_time = none → bi.length = (il.map cols).foldr max 0) ∧
        (∀ mt, max_time = some mt → bi.length = mt) ∧
        (∀ plane ∈ bi, plane.length = size ∧ ∀ v ∈ plane, v.length = nf) ∧
        sl.length = size ∧
        (∀ b, b < size → sl.getD b 0 = cols (il.getD b [])) ∧
        (∀ b t, b < size → sl.getD b 0 ≤ t →
          ∀ x ∈ (bi.getD t []).getD b [], x = 0) := by
  intro mt size nf il tl bi sl hlen hnf h
  rcases il with - | ⟨m₀, rest⟩
  · unfold data_lists_to_batch at h
    split at h
    · simp at h
    · simp at h
  · have htake : (m₀ :: rest).take size = m₀ :: rest := by
      rw [← hlen]; exact List.take_length _
    unfold data_lists_to_batch at h
    split at h
    · simp at h
    · split at h
      · simp at h
      · rename_i il' m₀' tail' heq
        injection heq with h1 h2
        subst h1
        subst h2
        dsimp only at h
        split at h
        · simp at h
        · split at h
          · simp at h
          · simp only [Option.some.injEq, Prod.mk.injEq] at h
            obtain ⟨hbi, hsl⟩ := h
            have hm₀ : m₀.length = nf := hnf m₀ (List.mem_cons_self _ _)
            have hbilen : bi.length = batch_max_steps mt (m₀ :: rest) := by
              rw [← hbi, List.length_map, List.length_range]
            refine ⟨hbilen, ?_, ?_, ?_, ?_, ?_, ?_⟩
            · intro hmt
              rw [hbilen, hmt, batch_max_steps_none]
            · intro m hmt
              rw [hbilen, hmt]
              rfl
            · intro plane hplane
              rw [← hbi] at hplane
              obtain ⟨t, -, rfl⟩ := List.mem_map.mp hplane
              refine ⟨by rw [List.length_map, List.length_range], ?_⟩
              intro v hv
              obtain ⟨b, -, rfl⟩ := List.mem_map.mp hv
              rw [htake]
              rcases hget : (m₀ :: rest).get? b with - | m
              · simp [hget, hm₀]
              · have hmem : m ∈ m₀ :: rest := List.get?_mem hget
                by_cases ht : t < cols m
                · simp [hget, ht, matrix_col, hnf m hmem]
                · simp [hget, ht, hm₀]
            · rw [← hsl, List.length_map, List.length_range]
            · intro b hb
              rw [← hsl, htake]
              rw [List.getD_eq_getElem?_getD, List.getElem?_map,
                List.getElem?_range hb]
              rfl
            · intro b t hb ht x hx
              have hslb : sl.getD b 0 = cols ((m₀ :: rest).getD b []) := by
                rw [← hsl, htake, List.getD_eq_getElem?_getD,
                  List.getElem?_map, List.getElem?_range hb]
                rfl
              rw [hslb] at ht
              rcases Nat.lt_or_ge t bi.length with htM | htM
              · have hplane : bi.getD t [] =
                    (List.range size).map (fun b =>
                      match ((m₀ :: rest).take size).get? b with
                      | some m => if t < cols m then matrix_col m t
                          else List.replicate m₀.length 0
                      | none => List.replicate m₀.length 0) := by
                  rw [← hbi, List.getD_eq_getElem?_getD, List.getElem?_map]
                  rw [← hbi, List.length_map, List.length_range] at htM
                  rw [List.getElem?_range htM]
                  rfl
                rw [hplane, List.getD_eq_getElem?_getD, List.getElem?_map,
                  List.getElem?_range hb] at hx
                simp only [Option.map_some', Option.getD_some] at hx
                rw [htake] at hx
                have hgb : b < (m₀ :: rest).length := by rw [hlen]; exact hb
                rw [List.get?_eq_getElem?, List.getElem?_eq_getElem hgb] at hx
                dsimp only at hx
                have hcols : ¬ t < cols ((m₀ :: rest).getD b []) :=
                  Nat.not_lt.mpr ht
                rw [List.getD_eq_getElem?_getD,
                  List.getElem?_eq_getElem hgb] at hcols
                simp only [Option.getD_some] at hcols
                rw [if_neg hcols] at hx
                exact List.eq_of_mem_replicate hx
              · have : bi.getD t [] = [] := by
                  rw [List.getD_eq_getElem?_getD,
                    List.getElem?_eq_none (Nat.le_of_lt_succ (Nat.lt_succ_of_le htM))]
                  rfl
                rw [this] at hx
                simp at hx

/-- Claim C5, witness: instantiating the batch-shape theorem on a batch of
two matrices with 2 feature rows and lengths 3 and 1, uncapped. -/
theorem c5_witness :
    ([[[1, 4], [7, 8]], [[2, 5], [0, 0]], [[3, 6], [0, 0]]] :
        List (List (List ℚ))).length =
      batch_max_steps none [[[1, 2, 3], [4, 5, 6]], [[7], [8]]] :=
  (c5_batch_shape_and_padding none 2 2 [[[1, 2, 3], [4, 5, 6]], [[7], [8]]]
    [[1], [2]] [[[1, 4], [7, 8]], [[2, 5], [0, 0]], [[3, 6], [0, 0]]] [3, 1]
    (by decide) (by decide) (by decide)).1

/-- Claim C6: when a ground-truth label is supplied, the fed-back label is
the previous greedy prediction exactly when the uniform draw is at most
`net_out_prob = 0.2` and the ground truth otherwise; with no ground truth
the previous prediction is always used; and the set of draws in `[0, 1)`
that select the ground truth has measure `0.8`. -/
theorem c6_label_selection :
    (∀ (rand_val : ℚ) (gt prev : List ℚ),
        fed_back_label (some gt) prev rand_val =
          if rand_val ≤ net_out_prob then prev else gt) ∧
      (∀ (rand_val : ℚ) (prev : List ℚ),
        fed_back_label none prev rand_val = prev) ∧
      MeasureTheory.volume
          {x : ℝ | x ∈ Set.Ico (0 : ℝ) 1 ∧ (net_out_prob : ℝ) < x} =
        ENNReal.ofReal (8 / 10) := by
  refine ⟨?_, fun rand_val prev => rfl, ?_⟩
  · intro rand_val gt prev
    simp only [fed_back_label, select_out_or_target]
    rcases le_or_lt rand_val net_out_prob with h | h
    · rw [if_neg (not_lt.mpr h), if_pos h]
    · rw [if_pos h, if_neg (not_le.mpr h)]
  · have hset : {x : ℝ | x ∈ Set.Ico (0 : ℝ) 1 ∧ (net_out_prob : ℝ) < x} =
        Set.Ioo (2 / 10 : ℝ) 1 := by
      ext x
      simp only [Set.mem_setOf_eq, Set.mem_Ico, Set.mem_Ioo, net_out_prob]
      push_cast
      constructor
      · rintro ⟨⟨-, hx1⟩, hx2⟩
        exact ⟨hx2, hx1⟩
      · rintro ⟨hx2, hx1⟩
        exact ⟨⟨le_trans (by norm_num) (le_of_lt hx2), hx1⟩, hx2⟩
    rw [hset, Real.volume_Ioo]
    norm_num

/-- A concrete trivial cell used to witness the feature-precondition
theorem: identity collaborator networks over `Unit` recurrent state, with
no features registered yet. -/
def trivial_cell : AttendAndSpellCell Unit where
  featr_net := id
  state_net := id
  char_net := id
  softmax := id
  pre_context_rnn := fun v s => (v, s)
  post_context_rnn := fun v s => (v, s)
  type_two := false
  target_label_no := 3
  high_lvl_features := none
  psi := none

/-- Claim C7: invoking the cell before features are registered fails with
the precondition error `"Features must be set."`; after `set_features` the
call never raises this error. -/
theorem c7_features_precondition :
    ∀ {σ : Type} (cell : AttendAndSpellCell σ) (cell_input : Option (List ℚ))
      (state : StateTouple σ) (rand_val : ℚ),
      (cell.psi = none →
        cell_call cell cell_input state rand_val =
          .error "Features must be set.") ∧
      (∀ features : List (List ℚ), ∃ out,
        cell_call (set_features cell features) cell_input state rand_val =
          .ok out) := by
  intro σ cell cell_input state rand_val
  constructor
  · intro hpsi
    unfold cell_call
    rw [hpsi]
  · intro features
    exact ⟨_, rfl⟩

/-- Claim C7, witness: the trivial cell with unset features errors with
`"Features must be set."`, and after registering a feature matrix the call
succeeds. -/
theorem c7_witness :
    cell_call trivial_cell none ⟨(), (), [1, 0, 0], [0, 0]⟩ (1 / 2) =
        .error "Features must be set." ∧
      ∃ out, cell_call (set_features trivial_cell [[1, 2]]) none
        ⟨(), (), [1, 0, 0], [0, 0]⟩ (1 / 2) = .ok out :=
  ⟨(c7_features_precondition trivial_cell none ⟨(), (), [1, 0, 0], [0, 0]⟩
      (1 / 2)).1 rfl,
    (c7_features_precondition trivial_cell none ⟨(), (), [1, 0, 0], [0, 0]⟩
      (1 / 2)).2 [[1, 2]]⟩

end TfKaldi
